/-
  Verification of the brainfuck runtime in `src/bfin.c` and `src/bfvm.c`.

  The two programs share the same data model: the tape is a doubly linked
  list of fixed-size byte chunks (`memchunk`), the cursor is a chunk plus the
  data pointer's offset inside its block, and loops are driven by a stack of
  left-bracket positions (`jumpstack`).  We embed the tape as a zipper
  (chunks to the left of the current one, the current chunk, chunks to the
  right, and the cursor offset), the instruction string as a `List Char`
  (the C string up to its terminator), and `execute` as a fuel-indexed
  small-step interpreter over a configuration holding the instruction
  pointer, tape, jump stack, produced output and remaining input.

  `bfin.c` obtains fresh chunk blocks with `malloc` (contents
  indeterminate), `bfvm.c` with `calloc` (contents zero).  The bfin
  embedding therefore threads an explicit allocation stream saying what
  bytes each freshly malloc'd block happens to contain; the bfvm embedding
  always produces zero-filled blocks.
-/
import Mathlib

set_option maxHeartbeats 1000000

namespace BF

/-- The byte block of one `memchunk` (field `mem`), of length `chunklen`.
The C code stores bytes in `char`; we model byte values as `Nat` with all
arithmetic taken modulo 256. -/
abbrev Chunk := List Nat

/-- The tape: the doubly linked list of `memchunk`s together with the data
pointer, as a zipper centred on the chunk `page` currently under the
cursor.  `lefts` holds the chunks reachable through `prev` (nearest
first), `rights` those reachable through `next` (nearest first), and
`off` is `data - page->mem`. -/
structure Tape where
  lefts : List Chunk
  cur : Chunk
  rights : List Chunk
  off : Nat
deriving Repr, DecidableEq

/-- A zero-filled fresh block of length `cl`, as produced by `calloc` in
bfvm's `init_memchunk`. -/
def freshChunk (cl : Nat) : Chunk := List.replicate cl 0

/-- `*data`: the byte under the cursor. -/
def Tape.readByte (t : Tape) : Nat := t.cur.getD t.off 0

/-- `*data = b`: overwrite the byte under the cursor. -/
def Tape.writeByte (t : Tape) (b : Nat) : Tape := { t with cur := t.cur.set t.off b }

/-- Well-formedness of a tape for chunk length `cl`: every block has
length `cl` and the cursor offset is in bounds. -/
def Tape.wf (cl : Nat) (t : Tape) : Prop :=
  t.cur.length = cl ∧ t.off < cl ∧
  (∀ c ∈ t.lefts, c.length = cl) ∧ (∀ c ∈ t.rights, c.length = cl)

/-- All chunk blocks of the tape laid out left to right as one byte
sequence. -/
def Tape.cells (t : Tape) : List Nat :=
  t.lefts.reverse.flatten ++ t.cur ++ t.rights.flatten

/-- The cursor's absolute index inside `Tape.cells`. -/
def Tape.pos (t : Tape) : Nat := (t.lefts.map List.length).sum + t.off

/-- One interpreter configuration of `execute`: the instruction pointer
`c - line` into the program, the process-wide tape, the jump stack
(positions of the pushed left brackets, top first), the bytes written by
`putchar` so far, and the bytes `getchar` has not yet consumed. -/
structure Config where
  pc : Nat
  tape : Tape
  stack : List Nat
  out : List Nat
  inp : List Nat
deriving Repr, DecidableEq

/-- How one invocation of `execute` ends. -/
inductive Outcome where
  /-- the loop reached the terminator and returned normally -/
  | ok
  /-- reported "'[' with no matching ']'" and returned -/
  | errLeft
  /-- reported "']' with no matching '['" and returned -/
  | errRight
  /-- called `pop_jump` on an empty stack: assertion failure in bfin,
  NULL dereference in bfvm -/
  | crash
deriving Repr, DecidableEq

/-- The scanning loop of `match_right`: `l` is the rest of the string,
`idx` the absolute index of its first character, `count` the nesting
counter. -/
def mrAux : List Char → Nat → Nat → Option Nat
  | [], _, _ => none
  | ch :: rest, idx, count =>
    if ch = '[' then mrAux rest (idx + 1) (count + 1)
    else if ch = ']' then
      if count ≠ 0 then mrAux rest (idx + 1) (count - 1) else some idx
    else mrAux rest (idx + 1) count

/-- `match_right` (identical in both sources): `pos` holds a `'['`; scan
from `pos + 1` for the matching `']'`, returning its index, or `none`
(C: `NULL`) when the terminator is reached first. -/
def match_right (prog : List Char) (pos : Nat) : Option Nat :=
  mrAux (prog.drop (pos + 1)) (pos + 1) 0

namespace BFVM

/-- bfvm's `'>'` case: `++data`, overflowing into `page->next` (or a chunk
freshly made by `overflow_right`, zero-filled by `calloc`) with
`data = page->mem`. -/
def advance (cl : Nat) (t : Tape) : Tape :=
  if t.off + 1 ≥ cl then
    match t.rights with
    | [] => { lefts := t.cur :: t.lefts, cur := freshChunk cl, rights := [], off := 0 }
    | c :: cs => { lefts := t.cur :: t.lefts, cur := c, rights := cs, off := 0 }
  else { t with off := t.off + 1 }

/-- bfvm's `'<'` case: `--data`, overflowing into `page->prev` (or a chunk
freshly made by `overflow_left`) with `data = page->mem + chunklen - 1`. -/
def retreat (cl : Nat) (t : Tape) : Tape :=
  if t.off = 0 then
    match t.lefts with
    | [] => { lefts := [], cur := freshChunk cl, rights := t.cur :: t.rights, off := cl - 1 }
    | c :: cs => { lefts := cs, cur := c, rights := t.cur :: t.rights, off := cl - 1 }
  else { t with off := t.off - 1 }

/-- The character loop of bfvm's `execute`, one fuel unit per executed
character.  Returns `none` when the fuel runs out before the invocation
ends. -/
def run (cl : Nat) (prog : List Char) : Nat → Config → Option (Outcome × Config)
  | 0, _ => none
  | fuel + 1, cfg =>
    if h : cfg.pc < prog.length then
      let ch := prog.get ⟨cfg.pc, h⟩
      if ch = '>' then
        run cl prog fuel { cfg with pc := cfg.pc + 1, tape := advance cl cfg.tape }
      else if ch = '<' then
        run cl prog fuel { cfg with pc := cfg.pc + 1, tape := retreat cl cfg.tape }
      else if ch = '+' then
        run cl prog fuel { cfg with pc := cfg.pc + 1, tape := cfg.tape.writeByte ((cfg.tape.readByte + 1) % 256) }
      else if ch = '-' then
        run cl prog fuel { cfg with pc := cfg.pc + 1, tape := cfg.tape.writeByte ((cfg.tape.readByte + 255) % 256) }
      else if ch = '.' then
        run cl prog fuel { cfg with pc := cfg.pc + 1, out := cfg.out ++ [cfg.tape.readByte] }
      else if ch = ',' then
        match cfg.inp with
        | [] => run cl prog fuel { cfg with pc := cfg.pc + 1, tape := cfg.tape.writeByte 255 }
        | b :: bs => run cl prog fuel
            { cfg with pc := cfg.pc + 1, tape := cfg.tape.writeByte (b % 256), inp := bs }
      else if ch = '[' then
        let right := match_right prog cfg.pc
        if cfg.tape.readByte = 0 then
          match right with
          | none => some (Outcome.errLeft, cfg)
          | some j => run cl prog fuel { cfg with pc := j + 1 }
        else
          match right with
          | some _ => run cl prog fuel { cfg with pc := cfg.pc + 1, stack := cfg.pc :: cfg.stack }
          | none => run cl prog fuel { cfg with pc := cfg.pc + 1 }
      else if ch = ']' then
        if cfg.tape.readByte ≠ 0 then
          match cfg.stack with
          | [] => some (Outcome.errRight, cfg)
          | l :: _ => run cl prog fuel { cfg with pc := l + 1 }
        else
          match cfg.stack with
          | [] => some (Outcome.crash, cfg)
          | _ :: rest => run cl prog fuel { cfg with pc := cfg.pc + 1, stack := rest }
      else
        run cl prog fuel { cfg with pc := cfg.pc + 1 }
    else
      some (Outcome.ok, cfg)

/-- bfvm's `execute` including its NULL guard: `line` is `none` when the
input collaborator returned NULL. -/
def execute (cl : Nat) (line : Option (List Char)) (fuel : Nat) (cfg : Config) :
    Option (Outcome × Config) :=
  match line with
  | none => some (Outcome.ok, cfg)
  | some prog => run cl prog fuel cfg

end BFVM

namespace BFIn

/-- bfin's `'>'` case.  `alloc_memchunk` obtains the block with `malloc`,
so when `overflow_right` runs, the fresh block's contents are whatever
bytes the allocation stream supplies (indeterminate in C); the stream
head is consumed.  An exhausted stream supplies zeros. -/
def advance (cl : Nat) (t : Tape) (allocs : List Chunk) : Tape × List Chunk :=
  if t.off + 1 ≥ cl then
    match t.rights with
    | [] => ({ lefts := t.cur :: t.lefts, cur := allocs.headD (freshChunk cl),
               rights := [], off := 0 }, allocs.tail)
    | c :: cs => ({ lefts := t.cur :: t.lefts, cur := c, rights := cs, off := 0 }, allocs)
  else ({ t with off := t.off + 1 }, allocs)

/-- bfin's `'<'` case, with `overflow_left` drawing its malloc'd block
from the allocation stream. -/
def retreat (cl : Nat) (t : Tape) (allocs : List Chunk) : Tape × List Chunk :=
  if t.off = 0 then
    match t.lefts with
    | [] => ({ lefts := [], cur := allocs.headD (freshChunk cl),
               rights := t.cur :: t.rights, off := cl - 1 }, allocs.tail)
    | c :: cs => ({ lefts := cs, cur := c, rights := t.cur :: t.rights, off := cl - 1 }, allocs)
  else ({ t with off := t.off - 1 }, allocs)

/-- The character loop of bfin's `execute`, threading the malloc
allocation stream. -/
def run (cl : Nat) (prog : List Char) :
    Nat → Config → List Chunk → Option (Outcome × Config × List Chunk)
  | 0, _, _ => none
  | fuel + 1, cfg, allocs =>
    if h : cfg.pc < prog.length then
      let ch := prog.get ⟨cfg.pc, h⟩
      if ch = '>' then
        let ta := advance cl cfg.tape allocs
        run cl prog fuel { cfg with pc := cfg.pc + 1, tape := ta.1 } ta.2
      else if ch = '<' then
        let ta := retreat cl cfg.tape allocs
        run cl prog fuel { cfg with pc := cfg.pc + 1, tape := ta.1 } ta.2
      else if ch = '+' then
        run cl prog fuel { cfg with pc := cfg.pc + 1, tape := cfg.tape.writeByte ((cfg.tape.readByte + 1) % 256) } allocs
      else if ch = '-' then
        run cl prog fuel { cfg with pc := cfg.pc + 1, tape := cfg.tape.writeByte ((cfg.tape.readByte + 255) % 256) } allocs
      else if ch = '.' then
        run cl prog fuel
          { cfg with pc := cfg.pc + 1, out := cfg.out ++ [cfg.tape.readByte] } allocs
      else if ch = ',' then
        match cfg.inp with
        | [] => run cl prog fuel
            { cfg with pc := cfg.pc + 1, tape := cfg.tape.writeByte 255 } allocs
        | b :: bs => run cl prog fuel
            { cfg with pc := cfg.pc + 1, tape := cfg.tape.writeByte (b % 256), inp := bs } allocs
      else if ch = '[' then
        let right := match_right prog cfg.pc
        if cfg.tape.readByte = 0 then
          match right with
          | none => some (Outcome.errLeft, cfg, allocs)
          | some j => run cl prog fuel { cfg with pc := j + 1 } allocs
        else
          match right with
          | some _ => run cl prog fuel
              { cfg with pc := cfg.pc + 1, stack := cfg.pc :: cfg.stack } allocs
          | none => run cl prog fuel { cfg with pc := cfg.pc + 1 } allocs
      else if ch = ']' then
        if cfg.tape.readByte ≠ 0 then
          match cfg.stack with
          | [] => some (Outcome.errRight, cfg, allocs)
          | l :: _ => run cl prog fuel { cfg with pc := l + 1 } allocs
        else
          match cfg.stack with
          | [] => some (Outcome.crash, cfg, allocs)
          | _ :: rest => run cl prog fuel { cfg with pc := cfg.pc + 1, stack := rest } allocs
      else
        run cl prog fuel { cfg with pc := cfg.pc + 1 } allocs
    else
      some (Outcome.ok, cfg, allocs)

/-- bfin's `execute` including its NULL guard (`line == NULL` returns
before touching anything). -/
def execute (cl : Nat) (line : Option (List Char)) (fuel : Nat) (cfg : Config)
    (allocs : List Chunk) : Option (Outcome × Config × List Chunk) :=
  match line with
  | none => some (Outcome.ok, cfg, allocs)
  | some prog => run cl prog fuel cfg allocs

end BFIn

end BF

namespace BF

/-! ### Helper lemmas about list cells and single bytes -/

theorem getD_set_self (l : List Nat) (i b : Nat) (h : i < l.length) :
    (l.set i b).getD i 0 = b := by
  induction l generalizing i with
  | nil => simp at h
  | cons x xs ih =>
    cases i with
    | zero => simp
    | succ n => simpa using ih n (by simpa using h)

theorem set_getD_self (l : List Nat) (i : Nat) :
    l.set i (l.getD i 0) = l := by
  induction l generalizing i with
  | nil => simp
  | cons x xs ih =>
    cases i with
    | zero => simp
    | succ n => simpa using ih n

theorem Tape.writeByte_writeByte (t : Tape) (a b : Nat) :
    (t.writeByte a).writeByte b = t.writeByte b := by
  simp [Tape.writeByte, List.set_set]

theorem Tape.readByte_writeByte (t : Tape) (b : Nat) (h : t.off < t.cur.length) :
    (t.writeByte b).readByte = b :=
  getD_set_self t.cur t.off b h

theorem Tape.writeByte_readByte_self (t : Tape) :
    t.writeByte t.readByte = t := by
  show ({ t with cur := t.cur.set t.off (t.cur.getD t.off 0) } : Tape) = t
  rw [set_getD_self]

theorem Tape.off_writeByte (t : Tape) (b : Nat) : (t.writeByte b).off = t.off := rfl

theorem Tape.length_cur_writeByte (t : Tape) (b : Nat) :
    (t.writeByte b).cur.length = t.cur.length := by
  simp [Tape.writeByte]

/-! ### Single-step equations for bfvm's `execute` loop

Each lemma unfolds one character of `BFVM.run`, mirroring one `case` of
the `switch` statement in the source. -/

namespace BFVM

theorem run_done (cl : Nat) (prog : List Char) (fuel : Nat) (cfg : Config)
    (h : ¬ cfg.pc < prog.length) :
    run cl prog (fuel + 1) cfg = some (Outcome.ok, cfg) := by
  simp only [run]
  rw [dif_neg h]

theorem run_step_gt (cl : Nat) (prog : List Char) (fuel : Nat) (cfg : Config)
    (h : cfg.pc < prog.length) (hch : prog[cfg.pc] = '>') :
    run cl prog (fuel + 1) cfg =
      run cl prog fuel { cfg with pc := cfg.pc + 1, tape := advance cl cfg.tape } := by
  simp only [run]
  rw [dif_pos h]
  simp [hch]

theorem run_step_lt (cl : Nat) (prog : List Char) (fuel : Nat) (cfg : Config)
    (h : cfg.pc < prog.length) (hch : prog[cfg.pc] = '<') :
    run cl prog (fuel + 1) cfg =
      run cl prog fuel { cfg with pc := cfg.pc + 1, tape := retreat cl cfg.tape } := by
  simp only [run]
  rw [dif_pos h]
  simp [hch]

theorem run_step_plus (cl : Nat) (prog : List Char) (fuel : Nat) (cfg : Config)
    (h : cfg.pc < prog.length) (hch : prog[cfg.pc] = '+') :
    run cl prog (fuel + 1) cfg =
      run cl prog fuel { cfg with pc := cfg.pc + 1, tape := cfg.tape.writeByte ((cfg.tape.readByte + 1) % 256) } := by
  simp only [run]
  rw [dif_pos h]
  simp [hch]

theorem run_step_minus (cl : Nat) (prog : List Char) (fuel : Nat) (cfg : Config)
    (h : cfg.pc < prog.length) (hch : prog[cfg.pc] = '-') :
    run cl prog (fuel + 1) cfg =
      run cl prog fuel { cfg with pc := cfg.pc + 1, tape := cfg.tape.writeByte ((cfg.tape.readByte + 255) % 256) } := by
  simp only [run]
  rw [dif_pos h]
  simp [hch]

theorem run_step_lbrack_zero_some (cl : Nat) (prog : List Char) (fuel : Nat) (cfg : Config)
    (h : cfg.pc < prog.length) (hch : prog[cfg.pc] = '[')
    (hb : cfg.tape.readByte = 0) (j : Nat) (hm : match_right prog cfg.pc = some j) :
    run cl prog (fuel + 1) cfg = run cl prog fuel { cfg with pc := j + 1 } := by
  simp only [run]
  rw [dif_pos h]
  simp [hch, hb, hm]

theorem run_step_lbrack_zero_none (cl : Nat) (prog : List Char) (fuel : Nat) (cfg : Config)
    (h : cfg.pc < prog.length) (hch : prog[cfg.pc] = '[')
    (hb : cfg.tape.readByte = 0) (hm : match_right prog cfg.pc = none) :
    run cl prog (fuel + 1) cfg = some (Outcome.errLeft, cfg) := by
  simp only [run]
  rw [dif_pos h]
  simp [hch, hb, hm]

theorem run_step_lbrack_pos (cl : Nat) (prog : List Char) (fuel : Nat) (cfg : Config)
    (h : cfg.pc < prog.length) (hch : prog[cfg.pc] = '[')
    (hb : cfg.tape.readByte ≠ 0) :
    run cl prog (fuel + 1) cfg =
      run cl prog fuel { cfg with pc := cfg.pc + 1, stack := if (match_right prog cfg.pc).isSome then cfg.pc :: cfg.stack
                 else cfg.stack } := by
  simp only [run]
  rw [dif_pos h]
  cases hm : match_right prog cfg.pc <;> simp [hch, hb, hm]

theorem run_step_lbrack_pos_some (cl : Nat) (prog : List Char) (fuel : Nat) (cfg : Config)
    (h : cfg.pc < prog.length) (hch : prog[cfg.pc] = '[')
    (hb : cfg.tape.readByte ≠ 0) (j : Nat) (hm : match_right prog cfg.pc = some j) :
    run cl prog (fuel + 1) cfg =
      run cl prog fuel { cfg with pc := cfg.pc + 1, stack := cfg.pc :: cfg.stack } := by
  simp only [run]
  rw [dif_pos h]
  simp [hch, hb, hm]

theorem run_step_rbrack_pos (cl : Nat) (prog : List Char) (fuel : Nat) (cfg : Config)
    (h : cfg.pc < prog.length) (hch : prog[cfg.pc] = ']')
    (hb : cfg.tape.readByte ≠ 0) (l : Nat) (rest : List Nat) (hs : cfg.stack = l :: rest) :
    run cl prog (fuel + 1) cfg = run cl prog fuel { cfg with pc := l + 1 } := by
  simp only [run]
  rw [dif_pos h]
  simp [hch, hb, hs]

theorem run_step_rbrack_pos_nil (cl : Nat) (prog : List Char) (fuel : Nat) (cfg : Config)
    (h : cfg.pc < prog.length) (hch : prog[cfg.pc] = ']')
    (hb : cfg.tape.readByte ≠ 0) (hs : cfg.stack = []) :
    run cl prog (fuel + 1) cfg = some (Outcome.errRight, cfg) := by
  simp only [run]
  rw [dif_pos h]
  simp [hch, hb, hs]

theorem run_step_rbrack_zero (cl : Nat) (prog : List Char) (fuel : Nat) (cfg : Config)
    (h : cfg.pc < prog.length) (hch : prog[cfg.pc] = ']')
    (hb : cfg.tape.readByte = 0) (l : Nat) (rest : List Nat) (hs : cfg.stack = l :: rest) :
    run cl prog (fuel + 1) cfg =
      run cl prog fuel { cfg with pc := cfg.pc + 1, stack := rest } := by
  simp only [run]
  rw [dif_pos h]
  simp [hch, hb, hs]

theorem run_step_rbrack_zero_nil (cl : Nat) (prog : List Char) (fuel : Nat) (cfg : Config)
    (h : cfg.pc < prog.length) (hch : prog[cfg.pc] = ']')
    (hb : cfg.tape.readByte = 0) (hs : cfg.stack = []) :
    run cl prog (fuel + 1) cfg = some (Outcome.crash, cfg) := by
  simp only [run]
  rw [dif_pos h]
  simp [hch, hb, hs]

end BFVM

end BF

namespace BF

/-- **C10**: invoking `execute` with a NULL program (the value `get_line`
and `get_prog` return on a read failure) returns immediately: the tape,
cursor, jump stack, pending input and produced output are untouched, no
output byte is emitted and no diagnostic outcome is produced, in both
bfin and bfvm. -/
theorem C10_execute_null_noop (cl fuel : Nat) (cfg : Config) (allocs : List Chunk) :
    BFVM.execute cl none fuel cfg = some (Outcome.ok, cfg) ∧
    BFIn.execute cl none fuel cfg allocs = some (Outcome.ok, cfg, allocs) :=
  ⟨rfl, rfl⟩

/-- **C1, counterexample**: the claim says a `'['` reached with a non-zero
current byte and no matching `']'` makes the invocation fail with a
reported syntax error and abandons it.  On the program `"[+"` with the
current cell holding 1, `match_right` finds no match, yet the invocation
runs to completion (`Outcome.ok`, not `Outcome.errLeft`) and the `'+'`
after the offending `'['` still executes, leaving the cell at 2. -/
theorem C1_counterexample :
    match_right ['[', '+'] 0 = none ∧
    BFVM.run 1 ['[', '+'] 3 ⟨0, ⟨[], [1], [], 0⟩, [], [], []⟩ =
      some (Outcome.ok, ⟨2, ⟨[], [2], [], 0⟩, [], [], []⟩) ∧
    BFIn.run 1 ['[', '+'] 3 ⟨0, ⟨[], [1], [], 0⟩, [], [], []⟩ [] =
      some (Outcome.ok, ⟨2, ⟨[], [2], [], 0⟩, [], [], []⟩, []) := by
  decide

/-- **C1, amended**: at a `'['` whose current byte is non-zero, a jump
record is pushed and the body entered exactly when a matching `']'`
exists; when no match exists, no error is reported and no record is
pushed — execution simply proceeds into the body at the next character.
(The reported syntax error and abandonment happen only when the byte is
zero and no match exists.) -/
theorem C1_lbracket_nonzero_push_iff_match (cl : Nat) (prog : List Char) (fuel : Nat)
    (cfg : Config) (h : cfg.pc < prog.length) (hch : prog[cfg.pc] = '[')
    (hb : cfg.tape.readByte ≠ 0) :
    (∀ j, match_right prog cfg.pc = some j →
      BFVM.run cl prog (fuel + 1) cfg =
        BFVM.run cl prog fuel { cfg with pc := cfg.pc + 1, stack := cfg.pc :: cfg.stack }) ∧
    (match_right prog cfg.pc = none →
      BFVM.run cl prog (fuel + 1) cfg =
        BFVM.run cl prog fuel { cfg with pc := cfg.pc + 1 }) := by
  constructor
  · intro j hm
    have hstep := BFVM.run_step_lbrack_pos cl prog fuel cfg h hch hb
    rw [hm] at hstep
    simpa using hstep
  · intro hm
    have hstep := BFVM.run_step_lbrack_pos cl prog fuel cfg h hch hb
    rw [hm] at hstep
    simpa using hstep

/-- Witness for the amended C1 at `"[+"`, cell 1, where no match exists. -/
theorem C1_lbracket_nonzero_push_iff_match_witness :
    (∀ j, match_right ['[', '+'] 0 = some j →
      BFVM.run 1 ['[', '+'] 3 ⟨0, ⟨[], [1], [], 0⟩, [], [], []⟩ =
        BFVM.run 1 ['[', '+'] 2 ⟨1, ⟨[], [1], [], 0⟩, [0], [], []⟩) ∧
    (match_right ['[', '+'] 0 = none →
      BFVM.run 1 ['[', '+'] 3 ⟨0, ⟨[], [1], [], 0⟩, [], [], []⟩ =
        BFVM.run 1 ['[', '+'] 2 ⟨1, ⟨[], [1], [], 0⟩, [], [], []⟩) :=
  C1_lbracket_nonzero_push_iff_match 1 ['[', '+'] 2 ⟨0, ⟨[], [1], [], 0⟩, [], [], []⟩
    (by decide) (by decide) (by decide)

/-- **C2**: a `']'` reached with an empty jump stack.  With a non-zero
current byte both programs report "']' with no matching '['" and abandon
the invocation (`Outcome.errRight`) — that half of the claim holds.  But
with a **zero** current byte both programs call `pop_jump` on the empty
stack: bfin fails its `assert(stack != NULL)` and aborts the process,
bfvm dereferences NULL (`Outcome.crash`).  So the claimed diagnostic-and-
abandon behaviour "regardless of whether the current tape byte is zero or
non-zero" does not hold: the zero case crashes the process instead. -/
theorem C2_rbracket_empty_stack :
    BFVM.run 1 [']'] 1 ⟨0, ⟨[], [0], [], 0⟩, [], [], []⟩ =
      some (Outcome.crash, ⟨0, ⟨[], [0], [], 0⟩, [], [], []⟩) ∧
    BFIn.run 1 [']'] 1 ⟨0, ⟨[], [0], [], 0⟩, [], [], []⟩ [] =
      some (Outcome.crash, ⟨0, ⟨[], [0], [], 0⟩, [], [], []⟩, []) ∧
    BFVM.run 1 [']'] 1 ⟨0, ⟨[], [7], [], 0⟩, [], [], []⟩ =
      some (Outcome.errRight, ⟨0, ⟨[], [7], [], 0⟩, [], [], []⟩) := by
  decide

/-- Every byte of a `calloc`-style fresh chunk reads as zero. -/
theorem getD_freshChunk (cl i : Nat) : (freshChunk cl).getD i 0 = 0 := by
  induction cl generalizing i with
  | zero => simp [freshChunk]
  | succ k ih => cases i <;> simp [freshChunk, List.replicate_succ, ih]

/-- **C3**: fresh-chunk initialization.  bfvm's `init_memchunk` gets its
byte block from `calloc`, so a freshly created chunk reads 0 everywhere
(second conjunct: after growing right, `'.'` emits 0).  bfin's
`alloc_memchunk` gets the block from `malloc`: its contents are whatever
the allocator left there, and when that is the byte 7 the freshly created
chunk reads 7 before ever being written (first conjunct), contradicting
the claim for bfin. -/
theorem C3_fresh_chunk_contents :
    BFIn.run 1 ['>', '.'] 3 ⟨0, ⟨[], [0], [], 0⟩, [], [], []⟩ [[7]] =
      some (Outcome.ok, ⟨2, ⟨[[0]], [7], [], 0⟩, [], [7], []⟩, []) ∧
    BFVM.run 1 ['>', '.'] 3 ⟨0, ⟨[], [0], [], 0⟩, [], [], []⟩ =
      some (Outcome.ok, ⟨2, ⟨[[0]], [0], [], 0⟩, [], [0], []⟩) ∧
    (∀ i, (freshChunk 5).getD i 0 = 0) :=
  ⟨by decide, by decide, fun i => getD_freshChunk 5 i⟩

/-- **C4, counterexample**: run `">."` from the same starting state in
both engines, with bfin's `malloc` handing back a block containing the
byte 65.  bfin prints 65, bfvm prints 0: the two programs are not
behaviorally equivalent on every instruction string and input. -/
theorem C4_counterexample :
    (BFIn.run 1 ['>', '.'] 3 ⟨0, ⟨[], [0], [], 0⟩, [], [], []⟩ [[65]]).map
        (fun r => r.2.1.out) = some [65] ∧
    (BFVM.run 1 ['>', '.'] 3 ⟨0, ⟨[], [0], [], 0⟩, [], [], []⟩).map
        (fun r => r.2.out) = some [0] ∧
    ([65] : List Nat) ≠ [0] := by
  decide

end BF

namespace BF

/-! ### Well-formedness preservation of the tape operations -/

theorem Tape.wf_writeByte (cl : Nat) (t : Tape) (b : Nat) (h : t.wf cl) :
    (t.writeByte b).wf cl := by
  obtain ⟨hlen, hoff, hl, hr⟩ := h
  exact ⟨by simpa [Tape.writeByte] using hlen, hoff, hl, hr⟩

theorem BFVM.wf_advance (cl : Nat) (t : Tape) (hcl : 0 < cl) (h : t.wf cl) :
    (BFVM.advance cl t).wf cl := by
  obtain ⟨hlen, hoff, hl, hr⟩ := h
  unfold BFVM.advance
  by_cases hb : t.off + 1 ≥ cl
  · rw [if_pos hb]
    cases hrt : t.rights with
    | nil =>
      refine ⟨by simp [freshChunk], hcl, ?_, by simp⟩
      intro c hc
      rcases List.mem_cons.mp hc with h1 | h1
      · exact h1 ▸ hlen
      · exact hl c h1
    | cons c cs =>
      refine ⟨hr c (by rw [hrt]; exact List.mem_cons_self c cs), hcl, ?_, ?_⟩
      · intro d hd
        rcases List.mem_cons.mp hd with h1 | h1
        · exact h1 ▸ hlen
        · exact hl d h1
      · intro d hd
        exact hr d (by rw [hrt]; exact List.mem_cons_of_mem c hd)
  · rw [if_neg hb]
    exact ⟨hlen, show t.off + 1 < cl by omega, hl, hr⟩

theorem BFVM.wf_retreat (cl : Nat) (t : Tape) (hcl : 0 < cl) (h : t.wf cl) :
    (BFVM.retreat cl t).wf cl := by
  obtain ⟨hlen, hoff, hl, hr⟩ := h
  unfold BFVM.retreat
  by_cases hb : t.off = 0
  · rw [if_pos hb]
    cases hlt : t.lefts with
    | nil =>
      refine ⟨by simp [freshChunk], show cl - 1 < cl by omega, by simp, ?_⟩
      intro c hc
      rcases List.mem_cons.mp hc with h1 | h1
      · exact h1 ▸ hlen
      · exact hr c h1
    | cons c cs =>
      refine ⟨hl c (by rw [hlt]; exact List.mem_cons_self c cs),
        show cl - 1 < cl by omega, ?_, ?_⟩
      · intro d hd
        exact hl d (by rw [hlt]; exact List.mem_cons_of_mem c hd)
      · intro d hd
        rcases List.mem_cons.mp hd with h1 | h1
        · exact h1 ▸ hlen
        · exact hr d h1
  · rw [if_neg hb]
    exact ⟨hlen, show t.off - 1 < cl by omega, hl, hr⟩

/-- The boundary contract of the cursor movements, together with
preservation of the offset range by every tape operation: moving while
not at a block edge only shifts the offset; moving past an edge enters
the neighbor chunk at its boundary byte (first on advance, last on
retreat), using an existing neighbor when there is one and a freshly
allocated chunk otherwise. -/
def tapeOpsBoundaryOk (cl : Nat) (t : Tape) (b : Nat) : Prop :=
  (BFVM.advance cl t).wf cl ∧ (BFVM.retreat cl t).wf cl ∧
  (t.writeByte b).wf cl ∧
  (t.writeByte ((t.readByte + 1) % 256)).wf cl ∧
  (t.writeByte ((t.readByte + 255) % 256)).wf cl ∧
  (t.off + 1 < cl → BFVM.advance cl t = { t with off := t.off + 1 }) ∧
  (t.off + 1 = cl →
    (t.rights = [] → BFVM.advance cl t = ⟨t.cur :: t.lefts, freshChunk cl, [], 0⟩) ∧
    ∀ c cs, t.rights = c :: cs → BFVM.advance cl t = ⟨t.cur :: t.lefts, c, cs, 0⟩) ∧
  (0 < t.off → BFVM.retreat cl t = { t with off := t.off - 1 }) ∧
  (t.off = 0 →
    (t.lefts = [] → BFVM.retreat cl t = ⟨[], freshChunk cl, t.cur :: t.rights, cl - 1⟩) ∧
    ∀ c cs, t.lefts = c :: cs → BFVM.retreat cl t = ⟨cs, c, t.cur :: t.rights, cl - 1⟩)

/-- **C9**: on a well-formed tape every operation of the execution loop
(`advance`, `retreat`, increment, decrement, plain write — read does not
move the cursor) leaves the cursor offset strictly inside its chunk
(`Tape.wf` holds again afterwards), and a movement that would leave the
block instead enters the neighbor at the corresponding boundary offset,
allocating it first when absent. -/
theorem C9_offset_invariant (cl : Nat) (t : Tape) (b : Nat) (hcl : 0 < cl)
    (h : t.wf cl) : tapeOpsBoundaryOk cl t b := by
  refine ⟨BFVM.wf_advance cl t hcl h, BFVM.wf_retreat cl t hcl h,
    Tape.wf_writeByte cl t _ h, Tape.wf_writeByte cl t _ h, Tape.wf_writeByte cl t _ h,
    ?_, ?_, ?_, ?_⟩
  · intro hlt
    unfold BFVM.advance
    rw [if_neg (by omega)]
  · intro heq
    constructor
    · intro hrt
      unfold BFVM.advance
      rw [if_pos (by omega), hrt]
    · intro c cs hrt
      unfold BFVM.advance
      rw [if_pos (by omega), hrt]
  · intro hpos
    unfold BFVM.retreat
    rw [if_neg (by omega)]
  · intro heq
    constructor
    · intro hlt
      unfold BFVM.retreat
      rw [if_pos heq, hlt]
    · intro c cs hlt
      unfold BFVM.retreat
      rw [if_pos heq, hlt]

/-- Witness for C9 on a concrete two-byte chunk with the cursor at its
last byte. -/
theorem C9_offset_invariant_witness :
    (0 : Nat) < 2 ∧ Tape.wf 2 ⟨[], [5, 6], [], 1⟩ ∧
      tapeOpsBoundaryOk 2 ⟨[], [5, 6], [], 1⟩ 9 :=
  ⟨by omega, ⟨rfl, by decide, by simp, by simp⟩,
    C9_offset_invariant 2 ⟨[], [5, 6], [], 1⟩ 9 (by omega)
      ⟨rfl, by decide, by simp, by simp⟩⟩

end BF

namespace BF

/-- Indexing an instruction string at the boundary between a prefix and
the rest yields the first remaining character. -/
theorem getElem_append_middle (pre : List Char) (op : Char) (rest : List Char)
    (h : pre.length < (pre ++ op :: rest).length) :
    (pre ++ op :: rest)[pre.length] = op := by
  rw [List.getElem_append_right (Nat.le_refl pre.length)]
  simp

/-- Executing a block of `'+'`/`'-'` instructions placed after an already
consumed prefix: the run completes normally and the current cell is
rewritten to its old value plus the number of `'+'` plus 255 times the
number of `'-'`, modulo 256. -/
theorem BFVM.run_plusminus (cl : Nat) :
    ∀ (ops pre : List Char) (cfg : Config),
      cfg.pc = pre.length →
      (∀ c ∈ ops, c = '+' ∨ c = '-') →
      cfg.tape.off < cfg.tape.cur.length →
      cfg.tape.readByte < 256 →
      BFVM.run cl (pre ++ ops) (ops.length + 1) cfg =
        some (Outcome.ok,
          { cfg with
              pc := pre.length + ops.length
              tape := cfg.tape.writeByte
                ((cfg.tape.readByte + ops.count '+' + 255 * ops.count '-') % 256) })
  | [], pre, cfg, hpc, _, _, hlt => by
    have hnot : ¬ cfg.pc < (pre ++ ([] : List Char)).length := by
      simp [hpc]
    have hstep := BFVM.run_done cl (pre ++ []) 0 cfg hnot
    simp only [List.length_nil] at hstep ⊢
    rw [hstep]
    have hmod : (cfg.tape.readByte + List.count '+' [] + 255 * List.count '-' []) % 256
        = cfg.tape.readByte := by
      simp only [List.count_nil]
      omega
    rw [hmod, Tape.writeByte_readByte_self, ← hpc]
    rfl
  | op :: rest, pre, cfg, hpc, hops, hoff, hlt => by
    have hlen : cfg.pc < (pre ++ op :: rest).length := by
      simp only [hpc, List.length_append, List.length_cons]
      omega
    have hget : (pre ++ op :: rest)[cfg.pc] = op := by
      have h2 := getElem_append_middle pre op rest
        (by simp only [List.length_append, List.length_cons]; omega)
      simp only [hpc]
      exact h2
    have hassoc : pre ++ op :: rest = (pre ++ [op]) ++ rest := by simp
    have hlen1 : ((pre ++ [op]).length : Nat) + rest.length = pre.length + (op :: rest).length := by
      simp only [List.length_append, List.length_cons, List.length_nil]
      omega
    rcases hops op (List.mem_cons_self op rest) with hop | hop
    · rw [show (op :: rest).length + 1 = rest.length + 1 + 1 from by simp]
      rw [BFVM.run_step_plus cl (pre ++ op :: rest) (rest.length + 1) cfg hlen
        (hop ▸ hget)]
      rw [hassoc]
      rw [BFVM.run_plusminus cl rest (pre ++ [op])
        { cfg with
            pc := cfg.pc + 1
            tape := cfg.tape.writeByte ((cfg.tape.readByte + 1) % 256) }
        (by simp [hpc]) (fun c hc => hops c (List.mem_cons_of_mem op hc))
        (by simpa [Tape.writeByte] using hoff)
        (by rw [Tape.readByte_writeByte _ _ hoff]; omega)]
      rw [Tape.readByte_writeByte _ _ hoff, Tape.writeByte_writeByte]
      have hc1 : List.count '+' (op :: rest) = List.count '+' rest + 1 := by
        simp [hop, List.count_cons]
      have hc2 : List.count '-' (op :: rest) = List.count '-' rest := by
        simp [hop, List.count_cons]
      have hb : ((cfg.tape.readByte + 1) % 256 + List.count '+' rest
            + 255 * List.count '-' rest) % 256
          = (cfg.tape.readByte + List.count '+' (op :: rest)
            + 255 * List.count '-' (op :: rest)) % 256 := by
        rw [hc1, hc2]
        omega
      rw [hb, hlen1]
    · rw [show (op :: rest).length + 1 = rest.length + 1 + 1 from by simp]
      rw [BFVM.run_step_minus cl (pre ++ op :: rest) (rest.length + 1) cfg hlen
        (hop ▸ hget)]
      rw [hassoc]
      rw [BFVM.run_plusminus cl rest (pre ++ [op])
        { cfg with
            pc := cfg.pc + 1
            tape := cfg.tape.writeByte ((cfg.tape.readByte + 255) % 256) }
        (by simp [hpc]) (fun c hc => hops c (List.mem_cons_of_mem op hc))
        (by simpa [Tape.writeByte] using hoff)
        (by rw [Tape.readByte_writeByte _ _ hoff]; omega)]
      rw [Tape.readByte_writeByte _ _ hoff, Tape.writeByte_writeByte]
      have hc1 : List.count '+' (op :: rest) = List.count '+' rest := by
        simp [hop, List.count_cons]
      have hc2 : List.count '-' (op :: rest) = List.count '-' rest + 1 := by
        simp [hop, List.count_cons]
      have hb : ((cfg.tape.readByte + 255) % 256 + List.count '+' rest
            + 255 * List.count '-' rest) % 256
          = (cfg.tape.readByte + List.count '+' (op :: rest)
            + 255 * List.count '-' (op :: rest)) % 256 := by
        rw [hc1, hc2]
        omega
      rw [hb, hlen1]

end BF

namespace BF

/-- **C5**: a program of `'+'`/`'-'` instructions applied to one cell
completes normally (wraparound is never an error) and leaves the cell at
its initial value plus the net increment count modulo 256; increments add
1 and decrements add 255, i.e. subtract 1, modulo 256. -/
theorem C5_plusminus_mod256 (cl : Nat) (t : Tape) (inp : List Nat) (ops : List Char)
    (h1 : t.off < t.cur.length) (h2 : t.readByte < 256)
    (h3 : ∀ c ∈ ops, c = '+' ∨ c = '-') :
    BFVM.run cl ops (ops.length + 1) ⟨0, t, [], [], inp⟩ =
      some (Outcome.ok, ⟨ops.length,
        t.writeByte ((t.readByte + ops.count '+' + 255 * ops.count '-') % 256),
        [], [], inp⟩) ∧
    ((t.writeByte ((t.readByte + ops.count '+' + 255 * ops.count '-') % 256)).readByte : Int) =
      ((t.readByte : Int) + ops.count '+' - ops.count '-') % 256 := by
  constructor
  · have hrun := BFVM.run_plusminus cl ops [] ⟨0, t, [], [], inp⟩ rfl h3 h1 h2
    simpa using hrun
  · rw [Tape.readByte_writeByte _ _ h1]
    omega

/-- Witness for C5: incrementing 255 yields 0 and decrementing 0 yields
255, both without error. -/
theorem C5_plusminus_mod256_witness :
    BFVM.run 1 ['+'] 2 ⟨0, ⟨[], [255], [], 0⟩, [], [], []⟩ =
      some (Outcome.ok, ⟨1, ⟨[], [0], [], 0⟩, [], [], []⟩) ∧
    BFVM.run 1 ['-'] 2 ⟨0, ⟨[], [0], [], 0⟩, [], [], []⟩ =
      some (Outcome.ok, ⟨1, ⟨[], [255], [], 0⟩, [], [], []⟩) :=
  ⟨(C5_plusminus_mod256 1 ⟨[], [255], [], 0⟩ [] ['+']
      (by decide) (by decide) (by decide)).1,
   (C5_plusminus_mod256 1 ⟨[], [0], [], 0⟩ [] ['-']
      (by decide) (by decide) (by decide)).1⟩

end BF

namespace BF

/-- The loop body of `"[-]"` entered with a pushed record for the `'['`
at position 0 and a non-zero cell: it terminates, pops the record, and
zeroes the cell. -/
theorem BFVM.clear_loop (cl : Nat) :
    ∀ (v : Nat) (t : Tape) (stack : List Nat) (out inp : List Nat),
      t.off < t.cur.length → t.readByte = v + 1 → v + 1 < 256 →
      ∃ fuel, BFVM.run cl ['[', '-', ']'] fuel ⟨1, t, 0 :: stack, out, inp⟩ =
        some (Outcome.ok, ⟨3, t.writeByte 0, stack, out, inp⟩)
  | 0, t, stack, out, inp, h1, hread, hlt => by
    refine ⟨3, ?_⟩
    rw [BFVM.run_step_minus cl ['[', '-', ']'] 2 ⟨1, t, 0 :: stack, out, inp⟩
      (show (1 : Nat) < 3 by omega) rfl]
    show BFVM.run cl ['[', '-', ']'] 2
      ⟨2, t.writeByte ((t.readByte + 255) % 256), 0 :: stack, out, inp⟩ = _
    rw [hread]
    rw [show (0 + 1 + 255) % 256 = 0 from by omega]
    rw [BFVM.run_step_rbrack_zero cl ['[', '-', ']'] 1
      ⟨2, t.writeByte 0, 0 :: stack, out, inp⟩ (show (2 : Nat) < 3 by omega) rfl
      (by rw [show (⟨2, t.writeByte 0, 0 :: stack, out, inp⟩ : Config).tape.readByte
            = (t.writeByte 0).readByte from rfl, Tape.readByte_writeByte _ _ h1])
      0 stack rfl]
    rw [BFVM.run_done cl ['[', '-', ']'] 0
      ⟨3, t.writeByte 0, stack, out, inp⟩ (show ¬ (3 : Nat) < 3 by omega)]
  | v + 1, t, stack, out, inp, h1, hread, hlt => by
    obtain ⟨f, hf⟩ := BFVM.clear_loop cl v (t.writeByte (v + 1)) stack out inp
      (by simpa [Tape.writeByte] using h1)
      (Tape.readByte_writeByte _ _ h1) (by omega)
    refine ⟨f + 2, ?_⟩
    rw [BFVM.run_step_minus cl ['[', '-', ']'] (f + 1) ⟨1, t, 0 :: stack, out, inp⟩
      (show (1 : Nat) < 3 by omega) rfl]
    show BFVM.run cl ['[', '-', ']'] (f + 1)
      ⟨2, t.writeByte ((t.readByte + 255) % 256), 0 :: stack, out, inp⟩ = _
    rw [hread]
    rw [show (v + 1 + 1 + 255) % 256 = v + 1 from by omega]
    rw [BFVM.run_step_rbrack_pos cl ['[', '-', ']'] f
      ⟨2, t.writeByte (v + 1), 0 :: stack, out, inp⟩ (show (2 : Nat) < 3 by omega) rfl
      (by rw [show (⟨2, t.writeByte (v + 1), 0 :: stack, out, inp⟩ : Config).tape.readByte
            = (t.writeByte (v + 1)).readByte from rfl, Tape.readByte_writeByte _ _ h1]
          omega)
      0 stack rfl]
    show BFVM.run cl ['[', '-', ']'] f
      ⟨1, t.writeByte (v + 1), 0 :: stack, out, inp⟩ = _
    rw [hf, Tape.writeByte_writeByte]

/-- **C6**: executing `"[-]"` terminates for every initial value of the
current cell, leaving the cell at 0 (first conjunct); when the cell is
already 0 the whole invocation takes a single `'['` step straight to the
terminator — the loop body, in particular the `'-'`, is never executed
and the tape is untouched (second conjunct). -/
theorem C6_clear_cell (cl : Nat) (t : Tape) (inp : List Nat)
    (h1 : t.off < t.cur.length) (h2 : t.readByte < 256) :
    (∃ fuel, BFVM.run cl ['[', '-', ']'] fuel ⟨0, t, [], [], inp⟩ =
        some (Outcome.ok, ⟨3, t.writeByte 0, [], [], inp⟩)) ∧
    (t.readByte = 0 →
      BFVM.run cl ['[', '-', ']'] 2 ⟨0, t, [], [], inp⟩ =
        some (Outcome.ok, ⟨3, t, [], [], inp⟩)) := by
  constructor
  · cases hv : t.readByte with
    | zero =>
      refine ⟨2, ?_⟩
      rw [BFVM.run_step_lbrack_zero_some cl ['[', '-', ']'] 1 ⟨0, t, [], [], inp⟩
        (show (0 : Nat) < 3 by omega) rfl hv 2 rfl]
      rw [BFVM.run_done cl ['[', '-', ']'] 0 ⟨3, t, [], [], inp⟩
        (show ¬ (3 : Nat) < 3 by omega)]
      rw [show (0 : Nat) = t.readByte from hv.symm, Tape.writeByte_readByte_self]
    | succ v =>
      obtain ⟨f, hf⟩ := BFVM.clear_loop cl v t [] [] inp h1 hv (by omega)
      refine ⟨f + 1, ?_⟩
      rw [BFVM.run_step_lbrack_pos_some cl ['[', '-', ']'] f ⟨0, t, [], [], inp⟩
        (show (0 : Nat) < 3 by omega) rfl
        (by
          show t.readByte ≠ 0
          rw [hv]
          exact Nat.succ_ne_zero v)
        2 rfl]
      exact hf
  · intro hzero
    rw [BFVM.run_step_lbrack_zero_some cl ['[', '-', ']'] 1 ⟨0, t, [], [], inp⟩
      (show (0 : Nat) < 3 by omega) rfl hzero 2 rfl]
    rw [BFVM.run_done cl ['[', '-', ']'] 0 ⟨3, t, [], [], inp⟩
      (show ¬ (3 : Nat) < 3 by omega)]

/-- Witness for C6 at a cell holding 2 (loop runs) and a cell holding 0
(loop body skipped in one step). -/
theorem C6_clear_cell_witness :
    (∃ fuel, BFVM.run 1 ['[', '-', ']'] fuel ⟨0, ⟨[], [2], [], 0⟩, [], [], []⟩ =
        some (Outcome.ok, ⟨3, ⟨[], [0], [], 0⟩, [], [], []⟩)) ∧
    BFVM.run 1 ['[', '-', ']'] 2 ⟨0, ⟨[], [0], [], 0⟩, [], [], []⟩ =
      some (Outcome.ok, ⟨3, ⟨[], [0], [], 0⟩, [], [], []⟩) :=
  ⟨(C6_clear_cell 1 ⟨[], [2], [], 0⟩ [] (by decide) (by decide)).1,
   (C6_clear_cell 1 ⟨[], [0], [], 0⟩ [] (by decide) (by decide)).2 (by decide)⟩

end BF

namespace BF

/-- Characterization of `mrAux`: starting the scan on the rest of the
string `l` (whose head sits at absolute index `idx`) with nesting counter
`count`, the scan returns the first position whose character is `']'`
and at which the running counter — `count` plus the `'['`s minus the
`']'`s seen so far — has reached zero, and returns `none` when no such
position exists. -/
theorem mrAux_some_iff :
    ∀ (l : List Char) (idx count j : Nat),
      mrAux l idx count = some j ↔
        ∃ n, n < l.length ∧ j = idx + n ∧ (l.drop n).headD ' ' = ']' ∧
          count + (l.take n).count '[' = (l.take n).count ']' ∧
          ∀ m, m < n → (l.drop m).headD ' ' = ']' →
            (l.take m).count ']' < count + (l.take m).count '['
  | [], idx, count, j => by
    simp [mrAux]
  | ch :: rest, idx, count, j => by
    by_cases h1 : ch = '['
    · subst h1
      rw [show mrAux ('[' :: rest) idx count = mrAux rest (idx + 1) (count + 1) from by
        simp [mrAux]]
      rw [mrAux_some_iff rest (idx + 1) (count + 1) j]
      constructor
      · rintro ⟨n, hn, hj, hh, hc, hfirst⟩
        refine ⟨n + 1, by simp only [List.length_cons]; omega, by omega,
          by simpa using hh, ?_, ?_⟩
        · simp only [List.take_succ_cons, List.count_cons_self,
            List.count_cons_of_ne (show (']' : Char) ≠ '[' by decide)]
          omega
        · intro m hm hhm
          cases m with
          | zero => simp at hhm
          | succ m' =>
            have hrec := hfirst m' (by omega) (by simpa using hhm)
            simp only [List.take_succ_cons, List.count_cons_self,
              List.count_cons_of_ne (show (']' : Char) ≠ '[' by decide)]
            omega
      · rintro ⟨n, hn, hj, hh, hc, hfirst⟩
        cases n with
        | zero => simp at hh
        | succ n' =>
          refine ⟨n', by simp only [List.length_cons] at hn; omega, by omega,
            by simpa using hh, ?_, ?_⟩
          · simp only [List.take_succ_cons, List.count_cons_self,
              List.count_cons_of_ne (show (']' : Char) ≠ '[' by decide)] at hc
            omega
          · intro m' hm' hhm'
            have hrec := hfirst (m' + 1) (by omega) (by simpa using hhm')
            simp only [List.take_succ_cons, List.count_cons_self,
              List.count_cons_of_ne (show (']' : Char) ≠ '[' by decide)] at hrec
            omega
    · by_cases h2 : ch = ']'
      · subst h2
        by_cases h3 : count = 0
        · subst h3
          rw [show mrAux (']' :: rest) idx 0 = some idx from by simp [mrAux]]
          constructor
          · intro hsome
            have hj : j = idx := by
              have := Option.some.inj hsome
              omega
            subst hj
            exact ⟨0, by simp only [List.length_cons]; omega, by omega, by simp,
              by simp, fun m hm => absurd hm (by omega)⟩
          · rintro ⟨n, hn, hj, hh, hc, hfirst⟩
            cases n with
            | zero =>
              simp only [Nat.add_zero] at hj
              rw [hj]
            | succ n' =>
              exfalso
              have hrec := hfirst 0 (by omega) (by simp)
              simp at hrec
        · rw [show mrAux (']' :: rest) idx count = mrAux rest (idx + 1) (count - 1) from by
            simp [mrAux, h3]]
          rw [mrAux_some_iff rest (idx + 1) (count - 1) j]
          constructor
          · rintro ⟨n, hn, hj, hh, hc, hfirst⟩
            refine ⟨n + 1, by simp only [List.length_cons]; omega, by omega,
              by simpa using hh, ?_, ?_⟩
            · simp only [List.take_succ_cons, List.count_cons_self,
                List.count_cons_of_ne (show ('[' : Char) ≠ ']' by decide)]
              omega
            · intro m hm hhm
              cases m with
              | zero =>
                simp only [List.take_nil, List.take_zero, List.count_nil]
                omega
              | succ m' =>
                have hrec := hfirst m' (by omega) (by simpa using hhm)
                simp only [List.take_succ_cons, List.count_cons_self,
                  List.count_cons_of_ne (show ('[' : Char) ≠ ']' by decide)]
                omega
          · rintro ⟨n, hn, hj, hh, hc, hfirst⟩
            cases n with
            | zero =>
              exfalso
              simp only [List.take_zero, List.count_nil] at hc
              omega
            | succ n' =>
              refine ⟨n', by simp only [List.length_cons] at hn; omega, by omega,
                by simpa using hh, ?_, ?_⟩
              · simp only [List.take_succ_cons, List.count_cons_self,
                  List.count_cons_of_ne (show ('[' : Char) ≠ ']' by decide)] at hc
                omega
              · intro m' hm' hhm'
                have hrec := hfirst (m' + 1) (by omega) (by simpa using hhm')
                simp only [List.take_succ_cons, List.count_cons_self,
                  List.count_cons_of_ne (show ('[' : Char) ≠ ']' by decide)] at hrec
                omega
      · rw [show mrAux (ch :: rest) idx count = mrAux rest (idx + 1) count from by
          simp [mrAux, h1, h2]]
        rw [mrAux_some_iff rest (idx + 1) count j]
        constructor
        · rintro ⟨n, hn, hj, hh, hc, hfirst⟩
          refine ⟨n + 1, by simp only [List.length_cons]; omega, by omega,
            by simpa using hh, ?_, ?_⟩
          · simp only [List.take_succ_cons,
              List.count_cons_of_ne (show ('[' : Char) ≠ ch from fun hx => h1 hx.symm),
              List.count_cons_of_ne (show (']' : Char) ≠ ch from fun hx => h2 hx.symm)]
            omega
          · intro m hm hhm
            cases m with
            | zero =>
              exfalso
              simp only [List.drop_zero, List.headD_cons] at hhm
              exact h2 hhm
            | succ m' =>
              have hrec := hfirst m' (by omega) (by simpa using hhm)
              simp only [List.take_succ_cons,
                List.count_cons_of_ne (show ('[' : Char) ≠ ch from fun hx => h1 hx.symm),
                List.count_cons_of_ne (show (']' : Char) ≠ ch from fun hx => h2 hx.symm)]
              omega
        · rintro ⟨n, hn, hj, hh, hc, hfirst⟩
          cases n with
          | zero =>
            exfalso
            simp only [List.drop_zero, List.headD_cons] at hh
            exact h2 hh
          | succ n' =>
            refine ⟨n', by simp only [List.length_cons] at hn; omega, by omega,
              by simpa using hh, ?_, ?_⟩
            · simp only [List.take_succ_cons,
                List.count_cons_of_ne (show ('[' : Char) ≠ ch from fun hx => h1 hx.symm),
                List.count_cons_of_ne (show (']' : Char) ≠ ch from fun hx => h2 hx.symm)] at hc
              omega
            · intro m' hm' hhm'
              have hrec := hfirst (m' + 1) (by omega) (by simpa using hhm')
              simp only [List.take_succ_cons,
                List.count_cons_of_ne (show ('[' : Char) ≠ ch from fun hx => h1 hx.symm),
                List.count_cons_of_ne (show (']' : Char) ≠ ch from fun hx => h2 hx.symm)] at hrec
              omega

end BF

namespace BF

/-- The claim's notion of "matching `']'`" for the `'['` at `pos`: a
strictly later position `j` holding `']'` such that the brackets strictly
between `pos` and `j` balance out, and no earlier `']'` after `pos` does
so (the nesting counter is still positive there). -/
def isMatchSpec (prog : List Char) (pos j : Nat) : Prop :=
  pos < j ∧ j < prog.length ∧ (prog.drop j).headD ' ' = ']' ∧
  ((prog.drop (pos + 1)).take (j - (pos + 1))).count '[' =
    ((prog.drop (pos + 1)).take (j - (pos + 1))).count ']' ∧
  ∀ k, pos < k → k < j → (prog.drop k).headD ' ' = ']' →
    ((prog.drop (pos + 1)).take (k - (pos + 1))).count ']' <
      ((prog.drop (pos + 1)).take (k - (pos + 1))).count '['

/-- **C7**: `match_right` returns exactly the first `']'` strictly after
`pos` at which the nesting counter — incremented at each further `'['`,
decremented at each `']'` seen at non-zero count — is zero; and it
returns `none` (no match) exactly when no such `']'` exists before the
terminator. -/
theorem C7_match_right_first_balanced (prog : List Char) (pos : Nat) :
    (∀ j, match_right prog pos = some j ↔ isMatchSpec prog pos j) ∧
    (match_right prog pos = none ↔ ∀ j, ¬ isMatchSpec prog pos j) := by
  have hmain : ∀ j, match_right prog pos = some j ↔ isMatchSpec prog pos j := by
    intro j
    rw [match_right, mrAux_some_iff]
    constructor
    · rintro ⟨n, hn, hj, hh, hc, hfirst⟩
      rw [List.length_drop] at hn
      have hjlen : j < prog.length := by omega
      have hjpos : pos < j := by omega
      have hdrop : (prog.drop (pos + 1)).drop n = prog.drop j := by
        rw [List.drop_drop]
        congr 1
        omega
      have hn2 : j - (pos + 1) = n := by omega
      refine ⟨hjpos, hjlen, by rwa [← hdrop], by rw [hn2]; simpa using hc, ?_⟩
      intro k hk1 hk2 hhk
      have hm : k - (pos + 1) < n := by omega
      have hdropk : (prog.drop (pos + 1)).drop (k - (pos + 1)) = prog.drop k := by
        rw [List.drop_drop]
        congr 1
        omega
      have hrec := hfirst (k - (pos + 1)) hm (by rwa [hdropk])
      omega
    · rintro ⟨hjpos, hjlen, hh, hc, hfirst⟩
      refine ⟨j - (pos + 1), ?_, by omega, ?_, by simpa using hc, ?_⟩
      · rw [List.length_drop]
        omega
      · have hdrop : (prog.drop (pos + 1)).drop (j - (pos + 1)) = prog.drop j := by
          rw [List.drop_drop]
          congr 1
          omega
        rwa [hdrop]
      · intro m hm hhm
        have hdropm : (prog.drop (pos + 1)).drop m = prog.drop (pos + 1 + m) := by
          rw [List.drop_drop]
        rw [hdropm] at hhm
        have hrec := hfirst (pos + 1 + m) (by omega) (by omega) hhm
        have hmeq : pos + 1 + m - (pos + 1) = m := by omega
        rw [hmeq] at hrec
        omega
  refine ⟨hmain, ?_⟩
  constructor
  · intro hnone j hspec
    have := (hmain j).mpr hspec
    rw [hnone] at this
    exact Option.noConfusion this
  · intro hall
    cases hm : match_right prog pos with
    | none => rfl
    | some j => exact absurd ((hmain j).mp hm) (hall j)

end BF

namespace BF

/-! ### The tape as a flat byte sequence -/

theorem flatten_reverse_cons (c : Chunk) (ls : List Chunk) :
    (c :: ls).reverse.flatten = ls.reverse.flatten ++ c := by
  simp

theorem Tape.pos_lt_cells_length (cl : Nat) (t : Tape) (h : t.wf cl) :
    t.pos < t.cells.length := by
  obtain ⟨hlen, hoff, hl, hr⟩ := h
  have hflat : t.lefts.reverse.flatten.length = (t.lefts.map List.length).sum := by
    rw [List.length_flatten, List.map_reverse, List.sum_reverse]
  simp only [Tape.cells, Tape.pos, List.length_append]
  omega

theorem Tape.readByte_cells (cl : Nat) (t : Tape) (h : t.wf cl) :
    t.cells.getD t.pos 0 = t.readByte := by
  obtain ⟨hlen, hoff, hl, hr⟩ := h
  have hflat : t.lefts.reverse.flatten.length = (t.lefts.map List.length).sum := by
    rw [List.length_flatten, List.map_reverse, List.sum_reverse]
  show (t.lefts.reverse.flatten ++ t.cur ++ t.rights.flatten).getD t.pos 0 = _
  rw [List.getD_append _ _ _ _ (by
    simp only [List.length_append, Tape.pos]
    omega)]
  rw [List.getD_append_right _ _ _ _ (by
    simp only [Tape.pos]
    omega)]
  show t.cur.getD (t.pos - t.lefts.reverse.flatten.length) 0 = t.readByte
  have hsub : t.pos - t.lefts.reverse.flatten.length = t.off := by
    simp only [Tape.pos]
    omega
  rw [hsub]
  rfl

/-- Advancing the cursor on a well-formed tape appends at most one fresh
zero-filled chunk on the right and moves the flat cursor position one to
the right. -/
theorem BFVM.advance_cells (cl : Nat) (t : Tape) (hcl : 0 < cl) (h : t.wf cl) :
    ∃ pad : List Nat, (∀ x ∈ pad, x = 0) ∧
      (BFVM.advance cl t).cells = t.cells ++ pad ∧
      (BFVM.advance cl t).pos = t.pos + 1 := by
  obtain ⟨hlen, hoff, hl, hr⟩ := h
  unfold BFVM.advance
  by_cases hb : t.off + 1 ≥ cl
  · rw [if_pos hb]
    cases hrt : t.rights with
    | nil =>
      refine ⟨freshChunk cl, ?_, ?_, ?_⟩
      · intro x hx
        exact List.eq_of_mem_replicate hx
      · show (t.cur :: t.lefts).reverse.flatten ++ freshChunk cl ++ List.flatten [] =
          (t.lefts.reverse.flatten ++ t.cur ++ t.rights.flatten) ++ freshChunk cl
        rw [flatten_reverse_cons, hrt]
        simp [List.append_assoc]
      · show ((t.cur :: t.lefts).map List.length).sum + 0 =
          (t.lefts.map List.length).sum + t.off + 1
        simp only [List.map_cons, List.sum_cons]
        omega
    | cons c cs =>
      refine ⟨[], by simp, ?_, ?_⟩
      · show (t.cur :: t.lefts).reverse.flatten ++ c ++ cs.flatten =
          (t.lefts.reverse.flatten ++ t.cur ++ t.rights.flatten) ++ []
        rw [flatten_reverse_cons, hrt]
        simp [List.append_assoc]
      · show ((t.cur :: t.lefts).map List.length).sum + 0 =
          (t.lefts.map List.length).sum + t.off + 1
        simp only [List.map_cons, List.sum_cons]
        omega
  · rw [if_neg hb]
    refine ⟨[], by simp, by simp [Tape.cells], ?_⟩
    show (t.lefts.map List.length).sum + (t.off + 1) =
      (t.lefts.map List.length).sum + t.off + 1
    omega

/-- Retreating the cursor on a well-formed tape prepends at most one
fresh zero-filled chunk on the left and moves the flat cursor position
one to the left (stated additively). -/
theorem BFVM.retreat_cells (cl : Nat) (t : Tape) (hcl : 0 < cl) (h : t.wf cl) :
    ∃ pad : List Nat, (∀ x ∈ pad, x = 0) ∧
      (BFVM.retreat cl t).cells = pad ++ t.cells ∧
      (BFVM.retreat cl t).pos + 1 = pad.length + t.pos := by
  obtain ⟨hlen, hoff, hl, hr⟩ := h
  unfold BFVM.retreat
  by_cases hb : t.off = 0
  · rw [if_pos hb]
    cases hlt : t.lefts with
    | nil =>
      refine ⟨freshChunk cl, ?_, ?_, ?_⟩
      · intro x hx
        exact List.eq_of_mem_replicate hx
      · show List.flatten [] ++ freshChunk cl ++ (t.cur :: t.rights).flatten =
          freshChunk cl ++ (t.lefts.reverse.flatten ++ t.cur ++ t.rights.flatten)
        rw [hlt]
        simp [List.append_assoc]
      · show (([] : List Chunk).map List.length).sum + (cl - 1) + 1 =
          (freshChunk cl).length + ((t.lefts.map List.length).sum + t.off)
        rw [hlt]
        simp [freshChunk]
        omega
    | cons c cs =>
      refine ⟨[], by simp, ?_, ?_⟩
      · show cs.reverse.flatten ++ c ++ (t.cur :: t.rights).flatten =
          [] ++ (t.lefts.reverse.flatten ++ t.cur ++ t.rights.flatten)
        rw [hlt, flatten_reverse_cons]
        simp [List.append_assoc]
      · show (cs.map List.length).sum + (cl - 1) + 1 =
          ([] : List Nat).length + ((t.lefts.map List.length).sum + t.off)
        rw [hlt]
        have hclen : c.length = cl := hl c (by rw [hlt]; exact List.mem_cons_self c cs)
        simp only [List.map_cons, List.sum_cons, List.length_nil]
        omega
  · rw [if_neg hb]
    refine ⟨[], by simp, by simp [Tape.cells], ?_⟩
    show (t.lefts.map List.length).sum + (t.off - 1) + 1 =
      ([] : List Nat).length + ((t.lefts.map List.length).sum + t.off)
    simp only [List.length_nil]
    omega

end BF

namespace BF

/-- Executing a block of `'>'`/`'<'` instructions placed after an already
consumed prefix: the run completes normally with the jump stack, output
and input untouched; the resulting tape's flat contents are the original
contents padded with zero-filled chunks on either side, and the flat
cursor position has moved by the net displacement. -/
theorem BFVM.run_moves (cl : Nat) :
    ∀ (ops pre : List Char) (cfg : Config),
      0 < cl → cfg.tape.wf cl → cfg.pc = pre.length →
      (∀ c ∈ ops, c = '>' ∨ c = '<') →
      ∃ t' padL padR,
        BFVM.run cl (pre ++ ops) (ops.length + 1) cfg =
          some (Outcome.ok, ⟨pre.length + ops.length, t', cfg.stack, cfg.out, cfg.inp⟩) ∧
        t'.wf cl ∧ (∀ x ∈ padL, x = 0) ∧ (∀ x ∈ padR, x = 0) ∧
        t'.cells = padL ++ cfg.tape.cells ++ padR ∧
        t'.pos + ops.count '<' = padL.length + cfg.tape.pos + ops.count '>'
  | [], pre, cfg, hcl, hwf, hpc, _ => by
    refine ⟨cfg.tape, [], [], ?_, hwf, by simp, by simp, by simp, by simp⟩
    have hnot : ¬ cfg.pc < (pre ++ ([] : List Char)).length := by
      simp [hpc]
    simp only [List.length_nil]
    rw [BFVM.run_done cl (pre ++ []) 0 cfg hnot, ← hpc]
    rfl
  | op :: rest, pre, cfg, hcl, hwf, hpc, hops => by
    have hlen : cfg.pc < (pre ++ op :: rest).length := by
      simp only [hpc, List.length_append, List.length_cons]
      omega
    have hget : (pre ++ op :: rest)[cfg.pc] = op := by
      have h2 := getElem_append_middle pre op rest
        (by simp only [List.length_append, List.length_cons]; omega)
      simp only [hpc]
      exact h2
    have hassoc : pre ++ op :: rest = (pre ++ [op]) ++ rest := by simp
    have hlen1 : ((pre ++ [op]).length : Nat) + rest.length = pre.length + (op :: rest).length := by
      simp only [List.length_append, List.length_cons, List.length_nil]
      omega
    rcases hops op (List.mem_cons_self op rest) with hop | hop
    · obtain ⟨pad, hpadz, hpcells, hppos⟩ := BFVM.advance_cells cl cfg.tape hcl hwf
      obtain ⟨t', padL, padR, hrun, hwf', hz1, hz2, hcells, hpos⟩ :=
        BFVM.run_moves cl rest (pre ++ [op])
          { cfg with pc := cfg.pc + 1, tape := BFVM.advance cl cfg.tape }
          hcl (BFVM.wf_advance cl cfg.tape hcl hwf) (by simp [hpc])
          (fun c hc => hops c (List.mem_cons_of_mem op hc))
      refine ⟨t', padL, pad ++ padR, ?_, hwf', hz1, ?_, ?_, ?_⟩
      · rw [show (op :: rest).length + 1 = rest.length + 1 + 1 from by simp]
        rw [BFVM.run_step_gt cl (pre ++ op :: rest) (rest.length + 1) cfg hlen
          (hop ▸ hget)]
        rw [hassoc, hrun, hlen1]
      · intro x hx
        rcases List.mem_append.mp hx with hx1 | hx1
        · exact hpadz x hx1
        · exact hz2 x hx1
      · rw [hcells]
        show padL ++ (BFVM.advance cl cfg.tape).cells ++ padR = _
        rw [hpcells]
        simp [List.append_assoc]
      · have hc1 : List.count '>' (op :: rest) = List.count '>' rest + 1 := by
          simp [hop, List.count_cons]
        have hc2 : List.count '<' (op :: rest) = List.count '<' rest := by
          simp [hop, List.count_cons]
        have hpos2 : t'.pos + List.count '<' rest =
            padL.length + (BFVM.advance cl cfg.tape).pos + List.count '>' rest := hpos
        rw [hc1, hc2]
        omega
    · obtain ⟨pad, hpadz, hpcells, hppos⟩ := BFVM.retreat_cells cl cfg.tape hcl hwf
      obtain ⟨t', padL, padR, hrun, hwf', hz1, hz2, hcells, hpos⟩ :=
        BFVM.run_moves cl rest (pre ++ [op])
          { cfg with pc := cfg.pc + 1, tape := BFVM.retreat cl cfg.tape }
          hcl (BFVM.wf_retreat cl cfg.tape hcl hwf) (by simp [hpc])
          (fun c hc => hops c (List.mem_cons_of_mem op hc))
      refine ⟨t', padL ++ pad, padR, ?_, hwf', ?_, hz2, ?_, ?_⟩
      · rw [show (op :: rest).length + 1 = rest.length + 1 + 1 from by simp]
        rw [BFVM.run_step_lt cl (pre ++ op :: rest) (rest.length + 1) cfg hlen
          (hop ▸ hget)]
        rw [hassoc, hrun, hlen1]
      · intro x hx
        rcases List.mem_append.mp hx with hx1 | hx1
        · exact hz1 x hx1
        · exact hpadz x hx1
      · rw [hcells]
        show padL ++ (BFVM.retreat cl cfg.tape).cells ++ padR = _
        rw [hpcells]
        simp [List.append_assoc]
      · have hc1 : List.count '>' (op :: rest) = List.count '>' rest := by
          simp [hop, List.count_cons]
        have hc2 : List.count '<' (op :: rest) = List.count '<' rest + 1 := by
          simp [hop, List.count_cons]
        have hpos2 : t'.pos + List.count '<' rest =
            padL.length + (BFVM.retreat cl cfg.tape).pos + List.count '>' rest := hpos
        rw [hc1, hc2]
        simp only [List.length_append]
        omega

end BF

namespace BF

/-- **C8**: a sequence of `'>'`/`'<'` moves with equally many of each
returns the cursor to its starting chunk and offset (flat position
`padL.length + t.pos` inside contents that are the old contents padded
with zero chunks).  Every byte present before is present unchanged at its
place inside the padding (`cells` equation), and the byte under the
cursor reads back exactly as before — in particular a byte written before
moving arbitrarily far across chunk boundaries and back is reproduced
exactly. -/
theorem C8_moves_roundtrip (cl : Nat) (t : Tape) (inp : List Nat) (ops : List Char)
    (hcl : 0 < cl) (hwf : t.wf cl) (hops : ∀ c ∈ ops, c = '>' ∨ c = '<')
    (hbal : ops.count '>' = ops.count '<') :
    ∃ t' padL padR,
      BFVM.run cl ops (ops.length + 1) ⟨0, t, [], [], inp⟩ =
        some (Outcome.ok, ⟨ops.length, t', [], [], inp⟩) ∧
      (∀ x ∈ padL, x = 0) ∧ (∀ x ∈ padR, x = 0) ∧
      t'.cells = padL ++ t.cells ++ padR ∧
      t'.pos = padL.length + t.pos ∧
      t'.readByte = t.readByte := by
  obtain ⟨t', padL, padR, hrun, hwf', hz1, hz2, hcells, hpos⟩ :=
    BFVM.run_moves cl ops [] ⟨0, t, [], [], inp⟩ hcl hwf rfl hops
  have hpos' : t'.pos = padL.length + t.pos := by
    have : (⟨0, t, [], [], inp⟩ : Config).tape.pos = t.pos := rfl
    omega
  have hread : t'.readByte = t.readByte := by
    have h1 := Tape.readByte_cells cl t' hwf'
    have h2 := Tape.readByte_cells cl t hwf
    have hlt : t.pos < t.cells.length := Tape.pos_lt_cells_length cl t hwf
    rw [← h1, hcells, hpos']
    show ((padL ++ t.cells) ++ padR).getD (padL.length + t.pos) 0 = _
    rw [List.getD_append _ _ _ _ (by
      simp only [List.length_append]
      omega)]
    rw [List.getD_append_right _ _ _ _ (by omega)]
    rw [show padL.length + t.pos - padL.length = t.pos from by omega]
    exact h2
  exact ⟨t', padL, padR, by simpa using hrun, hz1, hz2, by simpa using hcells, hpos', hread⟩

/-- Witness for C8: the byte 9 is written at the cursor, the cursor
crosses the left chunk boundary (growing the tape) and comes back, and
the written byte reads back as 9. -/
theorem C8_moves_roundtrip_witness :
    ∃ t' padL padR,
      BFVM.run 2 ['<', '>'] 3
          ⟨0, (⟨[], [0, 0], [], 0⟩ : Tape).writeByte 9, [], [], []⟩ =
        some (Outcome.ok, ⟨2, t', [], [], []⟩) ∧
      (∀ x ∈ padL, x = 0) ∧ (∀ x ∈ padR, x = 0) ∧
      t'.cells = padL ++ ((⟨[], [0, 0], [], 0⟩ : Tape).writeByte 9).cells ++ padR ∧
      t'.pos = padL.length + ((⟨[], [0, 0], [], 0⟩ : Tape).writeByte 9).pos ∧
      t'.readByte = ((⟨[], [0, 0], [], 0⟩ : Tape).writeByte 9).readByte :=
  C8_moves_roundtrip 2 ((⟨[], [0, 0], [], 0⟩ : Tape).writeByte 9) [] ['<', '>']
    (by omega) ⟨by decide, by decide, by decide, by decide⟩ (by decide) (by decide)

end BF

namespace BF

/-- With an exhausted allocation stream, bfin's advance produces exactly
the zero-filled chunk bfvm's calloc would. -/
theorem BFIn.advance_nil (cl : Nat) (t : Tape) :
    BFIn.advance cl t [] = (BFVM.advance cl t, []) := by
  unfold BFIn.advance BFVM.advance
  by_cases hb : t.off + 1 ≥ cl
  · rw [if_pos hb, if_pos hb]
    cases t.rights <;> simp
  · rw [if_neg hb, if_neg hb]

/-- With an exhausted allocation stream, bfin's retreat produces exactly
the zero-filled chunk bfvm's calloc would. -/
theorem BFIn.retreat_nil (cl : Nat) (t : Tape) :
    BFIn.retreat cl t [] = (BFVM.retreat cl t, []) := by
  unfold BFIn.retreat BFVM.retreat
  by_cases hb : t.off = 0
  · rw [if_pos hb, if_pos hb]
    cases t.lefts <;> simp
  · rw [if_neg hb, if_neg hb]

/-- **C4, amended**: bfin's and bfvm's execution loops agree step for
step whenever every freshly malloc'd chunk happens to be all zero (the
empty allocation stream, whose default is the zero chunk): same outcome,
same final configuration (tape, cursor, stack, output, remaining input)
for every chunk length, program, fuel and starting configuration. -/
theorem C4_engines_equivalent_zero_alloc (cl : Nat) (prog : List Char) :
    ∀ (fuel : Nat) (cfg : Config),
      BFIn.run cl prog fuel cfg [] =
        (BFVM.run cl prog fuel cfg).map (fun r => (r.1, r.2, ([] : List Chunk)))
  | 0, _ => rfl
  | fuel + 1, cfg => by
    have ih := fun cfg2 => C4_engines_equivalent_zero_alloc cl prog fuel cfg2
    have ha1 : (BFIn.advance cl cfg.tape []).1 = BFVM.advance cl cfg.tape := by
      rw [BFIn.advance_nil]
    have ha2 : (BFIn.advance cl cfg.tape []).2 = [] := by
      rw [BFIn.advance_nil]
    have hr1 : (BFIn.retreat cl cfg.tape []).1 = BFVM.retreat cl cfg.tape := by
      rw [BFIn.retreat_nil]
    have hr2 : (BFIn.retreat cl cfg.tape []).2 = [] := by
      rw [BFIn.retreat_nil]
    simp only [BFIn.run, BFVM.run]
    by_cases h : cfg.pc < prog.length
    · rw [dif_pos h, dif_pos h]
      by_cases h1 : prog.get ⟨cfg.pc, h⟩ = '>'
      · simp only [if_pos h1, ha1, ha2]
        exact ih _
      rw [if_neg h1, if_neg h1]
      by_cases h2 : prog.get ⟨cfg.pc, h⟩ = '<'
      · simp only [if_pos h2, hr1, hr2]
        exact ih _
      rw [if_neg h2, if_neg h2]
      by_cases h3 : prog.get ⟨cfg.pc, h⟩ = '+'
      · simp only [if_pos h3]
        exact ih _
      rw [if_neg h3, if_neg h3]
      by_cases h4 : prog.get ⟨cfg.pc, h⟩ = '-'
      · simp only [if_pos h4]
        exact ih _
      rw [if_neg h4, if_neg h4]
      by_cases h5 : prog.get ⟨cfg.pc, h⟩ = '.'
      · simp only [if_pos h5]
        exact ih _
      rw [if_neg h5, if_neg h5]
      by_cases h6 : prog.get ⟨cfg.pc, h⟩ = ','
      · simp only [if_pos h6]
        rcases hinp : cfg.inp with _ | ⟨b, bs⟩
        · exact ih _
        · exact ih _
      rw [if_neg h6, if_neg h6]
      by_cases h7 : prog.get ⟨cfg.pc, h⟩ = '['
      · simp only [if_pos h7]
        by_cases hz : cfg.tape.readByte = 0
        · simp only [if_pos hz]
          rcases hm : match_right prog cfg.pc with _ | j
          · rfl
          · exact ih _
        · simp only [if_neg hz]
          rcases hm : match_right prog cfg.pc with _ | j
          · exact ih _
          · exact ih _
      rw [if_neg h7, if_neg h7]
      by_cases h8 : prog.get ⟨cfg.pc, h⟩ = ']'
      · simp only [if_pos h8]
        by_cases hz : cfg.tape.readByte = 0
        · simp only [if_neg (show ¬ cfg.tape.readByte ≠ 0 from fun hne => hne hz)]
          rcases hst : cfg.stack with _ | ⟨l, rest⟩
          · rfl
          · exact ih _
        · simp only [if_pos hz]
          rcases hst : cfg.stack with _ | ⟨l, rest⟩
          · rfl
          · exact ih _
      rw [if_neg h8, if_neg h8]
      exact ih _
    · rw [dif_neg h, dif_neg h]
      rfl

end BF
